import Mathlib

/-!
Verification of the timed-event stream algebra of the `avril` repository
(`src/stream.rs`, `src/var.rs`).

A stream is a (here: finite) sequence of `(relative delay, value)` pairs.
Rust `Duration` values are embedded as `Int` together with explicit
non-negativity hypotheses where the claims assume them, so that statements
about "no underflow in duration subtraction" become statements about
non-negative results.  Each definition below is a direct translation of the
corresponding iterator in `src/stream.rs` / `src/var.rs`; definitions marked
"specification-side" instead follow the specification's words and are
compared against the code-derived definitions.  The eager collection inside
`repeat_every` is additionally modelled over genuinely infinite inputs
(`Nat → Int × E`) with an explicit fuel argument, so that divergence of the
pull loop is expressible.
-/

universe u v

namespace Avril

/-- Absolute-time view of a relative-delay event list: the k-th output pair is
`(t0 + sum of the first k delays, value)`. -/
def toAbs {E : Type u} (t0 : Int) : List (Int × E) → List (Int × E)
  | [] => []
  | (d, e) :: rest => (t0 + d, e) :: toAbs (t0 + d) rest

/-- `Stream::map` (src/stream.rs line 71): apply `f` to every value, delays
unchanged. -/
def map {E : Type u} {F : Type v} (f : E → F) : List (Int × E) → List (Int × F) :=
  List.map (fun p => (p.1, f p.2))

/-- `Stream::chain` (src/stream.rs line 7): plain concatenation of the two
event lists, delays untouched. -/
def chain {E : Type u} (s1 s2 : List (Int × E)) : List (Int × E) :=
  s1 ++ s2

/-- One batch of `Stream::flatten` (src/stream.rs lines 46-54): the zip of
`once(d).chain(repeat(0))` with the collection, so the first element carries
`d`, the rest carry `0`, and an empty collection contributes nothing. -/
def flattenBatch {E : Type u} (d : Int) : List E → List (Int × E)
  | [] => []
  | v :: vs => (d, v) :: vs.map (fun x => ((0 : Int), x))

/-- `Stream::flatten` (src/stream.rs lines 46-54). -/
def flatten {E : Type u} : List (Int × List E) → List (Int × E)
  | [] => []
  | (d, es) :: rest => flattenBatch d es ++ flatten rest

/-- The state of the `ChainAt` iterator after `source1` has been dropped
(src/stream.rs lines 138-147): each event pulled from `source2` has the
leftover threshold added to its delay, and the threshold is then zeroed. -/
def chainAtTail {E : Type u} (t : Int) : List (Int × E) → List (Int × E)
  | [] => []
  | (d, e) :: rest => (d + t, e) :: chainAtTail 0 rest

/-- The `ChainAt` iterator (src/stream.rs lines 125-151): events of the first
source pass through while their delay is at most the remaining threshold,
which they decrement; the first event exceeding it (or the end of the first
source) switches permanently to the second source. -/
def chainAt {E : Type u} (t : Int) : List (Int × E) → List (Int × E) → List (Int × E)
  | [], s2 => chainAtTail t s2
  | (d, e) :: s1, s2 =>
    if d ≤ t then (d, e) :: chainAt (t - d) s1 s2 else chainAtTail t s2

/-- `Stream::take` (src/stream.rs line 112): `chain_at(duration, empty())`. -/
def take {E : Type u} (t : Int) (s : List (Int × E)) : List (Int × E) :=
  chainAt t s []

/-- The `Drop` iterator (src/stream.rs lines 177-198): discard events while
the remaining duration exceeds their delay; the first surviving event's delay
is reduced by the remaining duration, which is then zeroed. -/
def drop {E : Type u} (t : Int) : List (Int × E) → List (Int × E)
  | [] => []
  | (d, e) :: rest => if t ≤ d then (d - t, e) :: drop 0 rest else drop (t - d) rest

/-- `Stream::delay` (src/stream.rs line 27): `empty().chain_at(duration, self)`. -/
def delay {E : Type u} (t : Int) (s : List (Int × E)) : List (Int × E) :=
  chainAt t [] s

/-- The recursion of the `Coalesce` iterator (src/stream.rs lines 153-175),
with the held-back head made explicit: a successor at delay `0` is folded
into the head with `reduce`; otherwise the head is emitted. -/
def coalesceAux {E : Type u} (f : E → E → E) : (Int × E) → List (Int × E) → List (Int × E)
  | h, [] => [h]
  | (d1, e1), (d2, e2) :: rest =>
    if d2 = 0 then coalesceAux f (d1, f e1 e2) rest
    else (d1, e1) :: coalesceAux f (d2, e2) rest

/-- `Stream::coalesce` (src/stream.rs line 17): the `Coalesce` iterator seeded
with the stream's first event as held-back head. -/
def coalesce {E : Type u} (f : E → E → E) : List (Int × E) → List (Int × E)
  | [] => []
  | h :: rest => coalesceAux f h rest

/-- The `Merge` iterator (src/stream.rs lines 221-244): compare the pending
delays of both sides, emit the smaller (ties favour the left side), and
subtract the emitted delay from the other side's pending delay; an exhausted
side lets the other pass through unchanged. -/
def merge {E : Type u} : List (Int × E) → List (Int × E) → List (Int × E)
  | [], s2 => s2
  | s1, [] => s1
  | (d1, e1) :: s1, (d2, e2) :: s2 =>
    if d1 ≤ d2 then (d1, e1) :: merge s1 ((d2 - d1, e2) :: s2)
    else (d2, e2) :: merge ((d1 - d2, e1) :: s1) s2
termination_by s1 s2 => s1.length + s2.length
decreasing_by
  all_goals simp

/-- `Stream::merge_all` (src/stream.rs lines 85-93): `fold1` of `merge`, with
the empty collection yielding the empty stream. -/
def mergeAll {E : Type u} : List (List (Int × E)) → List (Int × E)
  | [] => []
  | s :: rest => rest.foldl merge s

/-- Finite unrolling of `Stream::replay_every` (src/stream.rs lines 104-111):
the lazily self-referential `sample.chain_at(interval, replay_every(sample,
interval))` unfolded `n` times, with the empty stream closing the unrolling. -/
def replayN {E : Type u} (sample : List (Int × E)) (t : Int) : Nat → List (Int × E)
  | 0 => []
  | n + 1 => chainAt t sample (replayN sample t n)

/-- Finite unrolling of `Stream::repeat_every` (src/stream.rs lines 97-103):
the eagerly collected sample is `take(interval)`, replayed by `replay_every`. -/
def repeatEveryN {E : Type u} (s : List (Int × E)) (t : Int) (n : Nat) : List (Int × E) :=
  replayN (take t s) t n

/-- All delays of an event list are non-negative (the `Duration` invariant). -/
def nonnegDelays {E : Type u} (s : List (Int × E)) : Prop :=
  ∀ p ∈ s, (0 : Int) ≤ p.1

instance {E : Type u} (s : List (Int × E)) : Decidable (nonnegDelays s) :=
  List.decidableBAll _ s

/-- Specification-side: increase the first event's delay by `x` ("`other`'s
first event's delay is increased by the leftover threshold"). -/
def bumpFirst {E : Type u} (x : Int) : List (Int × E) → List (Int × E)
  | [] => []
  | (d, e) :: rest => (d + x, e) :: rest

/-- Specification-side: the events passed through by `chain_at` — events
consumed "while the cumulative delay stays ≤ threshold, decrementing the
remaining threshold by each consumed delay". -/
def specPass {E : Type u} (t : Int) : List (Int × E) → List (Int × E)
  | [] => []
  | (d, e) :: rest => if d ≤ t then (d, e) :: specPass (t - d) rest else []

/-- Sum of the delays of an event list. -/
def delaySum {E : Type u} (s : List (Int × E)) : Int :=
  s.foldr (fun p a => p.1 + a) 0

/-- Specification-side: split off the values of the events that share the
instant of the previous event, i.e. the leading run of delay-`0` events. -/
def zeroRun {E : Type u} : List (Int × E) → List E × List (Int × E)
  | [] => ([], [])
  | (d, e) :: rest =>
    if d = 0 then ((e :: (zeroRun rest).1), (zeroRun rest).2)
    else ([], (d, e) :: rest)

/-- Specification-side: replace each maximal run of an event followed by
consecutive delay-`0` events with a single event carrying the run's first
delay and the left fold of `reduce` over the run's values in order. -/
def coalesceSpec {E : Type u} (f : E → E → E) : List (Int × E) → List (Int × E)
  | [] => []
  | (d, e) :: rest =>
    (d, ((zeroRun rest).1).foldl f e) :: coalesceSpec f (zeroRun rest).2
termination_by l => l.length
decreasing_by
  have h : ∀ l : List (Int × E), (zeroRun l).2.length ≤ l.length := by
    intro l
    induction l with
    | nil => simp [zeroRun]
    | cons p r ih =>
      obtain ⟨d, e⟩ := p
      by_cases hd : d = 0 <;> simp [zeroRun, hd] <;> omega
  have := h rest
  simp
  omega

/-- Specification-side: the stable merge by absolute time of two event lists
already in absolute time — "as if both were converted to absolute time and
re-sorted, stable on ties favoring the left operand". -/
def mergeAbs {E : Type u} : List (Int × E) → List (Int × E) → List (Int × E)
  | [], l2 => l2
  | l1, [] => l1
  | (t1, e1) :: l1, (t2, e2) :: l2 =>
    if t1 ≤ t2 then (t1, e1) :: mergeAbs l1 ((t2, e2) :: l2)
    else (t2, e2) :: mergeAbs ((t1, e1) :: l1) l2
termination_by l1 l2 => l1.length + l2.length
decreasing_by
  all_goals simp

/-- Specification-side: the events of an absolute-time list falling in the
window `[lo, hi)`, rebased to their intra-window offset. -/
def window {E : Type u} (lo hi : Int) (l : List (Int × E)) : List (Int × E) :=
  (l.filter (fun p => decide (lo ≤ p.1) && decide (p.1 < hi))).map
    (fun p => (p.1 - lo, p.2))

/-- Specification-side: `n` copies of a snapshot's absolute-time events, one
copy per period, each shifted one interval after the previous. -/
def periodsAbs {E : Type u} (sample : List (Int × E)) (T : Int) (t0 : Int) :
    Nat → List (Int × E)
  | 0 => []
  | n + 1 => toAbs t0 sample ++ periodsAbs sample T (t0 + T) n

/-- `Var` (src/var.rs lines 4-7): a present value plus a stream of future
replacements. -/
structure Var (T : Type u) : Type u where
  present : T
  future : List (Int × T)
deriving DecidableEq

/-- `Var::updates` (src/var.rs lines 22-24): `immediate(present).chain(future)`,
i.e. the present value at delay `0` followed by the future stream. -/
def updates {T : Type u} (v : Var T) : List (Int × T) :=
  (0, v.present) :: v.future

/-- `Var::map` (src/var.rs lines 25-33): transform the present value and every
future value. -/
def varMap {T : Type u} {U : Type v} (f : T → U) (v : Var T) : Var U :=
  ⟨f v.present, map f v.future⟩

/-- The recursion of `Var<Stream<T>>::sequence` (src/var.rs lines 45-58): play
the present inner stream spliced at the next replacement's delay against the
recursively sequenced remainder; if no replacement remains, play the present
stream to the end. -/
def seqStream {E : Type u} : List (Int × E) → List (Int × List (Int × E)) → List (Int × E)
  | pres, [] => pres
  | pres, (d, s) :: rest => chainAt d pres (seqStream s rest)

/-- `Var<Stream<T>>::sequence` (src/var.rs lines 45-58). -/
def varSequence {T : Type u} (v : Var (List (Int × T))) : List (Int × T) :=
  seqStream v.present v.future

/-- The stream flattened inside `Var<Var<T>>::sequence` (src/var.rs line 62):
`self.map(Var::updates).sequence()`. -/
def flatInner {T : Type u} (v : Var (Var T)) : List (Int × T) :=
  varSequence (varMap updates v)

/-- `Var<Var<T>>::sequence` (src/var.rs lines 60-68): pull the first event of
the flattened stream; if it arrives at delay `0` it becomes the new present
value with the remainder as future, otherwise the code panics
(`unreachable!`), modelled as `none`. -/
def varVarSequence {T : Type u} (v : Var (Var T)) : Option (Var T) :=
  match flatInner v with
  | [] => none
  | (d, x) :: rest => if d = 0 then some ⟨x, rest⟩ else none

/-- The eager pull loop performed at `repeat_every` construction time
(src/stream.rs line 101: `self.take(interval).into_iter().collect()`),
modelled over a genuinely infinite input `f` with an explicit fuel bound:
`none` means the loop has not finished within `fuel` pulls.  Index `i` is the
position of the next input event; `t` is the remaining threshold of the
underlying `ChainAt` iterator. -/
def collectTake {E : Type u} (f : Nat → Int × E) : Int → Nat → Nat → Option (List (Int × E))
  | _, _, 0 => none
  | t, i, fuel + 1 =>
    if (f i).1 ≤ t then
      (collectTake f (t - (f i).1) (i + 1) fuel).map (fun l => f i :: l)
    else some []

/-- Running sum of the delays of an infinite input, starting at index `i`. -/
def cumFrom {E : Type u} (f : Nat → Int × E) (i : Nat) : Nat → Int
  | 0 => 0
  | n + 1 => (f i).1 + cumFrom f (i + 1) n

/-- The infinite input whose events all carry delay `0`. -/
def zeroDelays : Nat → Int × Unit :=
  fun _ => (0, ())

/-- The construction-time pull loop diverges on input `f` with interval `t`:
no amount of fuel, from any starting index, lets it finish. -/
def constructionDiverges {E : Type u} (f : Nat → Int × E) (t : Int) : Prop :=
  ∀ fuel i, collectTake f t i fuel = none

/-! ### Basic lemmas about `chainAt` -/

theorem chainAtTail_zero {E : Type u} : ∀ s : List (Int × E), chainAtTail 0 s = s := by
  intro s
  induction s with
  | nil => rfl
  | cons h rest ih =>
    obtain ⟨d, e⟩ := h
    simp [chainAtTail, ih]

theorem chainAtTail_eq_bumpFirst {E : Type u} (t : Int) (s : List (Int × E)) :
    chainAtTail t s = bumpFirst t s := by
  cases s with
  | nil => rfl
  | cons h rest =>
    obtain ⟨d, e⟩ := h
    simp [chainAtTail, bumpFirst, chainAtTail_zero]

/-- Closed form of the `ChainAt` iterator: the passed-through prefix followed
by the second source with its first delay bumped by the leftover threshold. -/
theorem chainAt_eq_spec {E : Type u} :
    ∀ (t : Int) (s1 s2 : List (Int × E)),
      chainAt t s1 s2 = specPass t s1 ++ bumpFirst (t - delaySum (specPass t s1)) s2 := by
  intro t s1
  induction s1 generalizing t with
  | nil =>
    intro s2
    simp [chainAt, specPass, delaySum, chainAtTail_eq_bumpFirst]
  | cons h rest ih =>
    intro s2
    obtain ⟨d, e⟩ := h
    by_cases hd : d ≤ t
    · simp only [chainAt, specPass, hd, if_true, ih (t - d) s2, delaySum, List.foldr_cons,
        List.cons_append, List.cons.injEq, true_and]
      have : t - (d + (specPass (t - d) rest).foldr (fun p a => p.1 + a) 0)
          = t - d - (specPass (t - d) rest).foldr (fun p a => p.1 + a) 0 := by omega
      rw [this]
    · simp [chainAt, specPass, hd, delaySum, chainAtTail_eq_bumpFirst]

/-! ### Claim C2: chain_at splice semantics -/

/-- C2: `chain_at(t, other)` passes through `self`'s events while the
cumulative delay stays ≤ `t` (decrementing the remaining threshold by each
consumed delay); the first `self` event whose delay exceeds the remaining
threshold is dropped entirely, `self` is abandoned, `other`'s first event's
delay is increased by the leftover threshold, and all later `other` events
pass through unchanged; if `self` exhausts first the leftover is likewise
absorbed by `other`'s first event.  In particular `chain_at(3, other)` on
`[(5, e1)]` never emits `e1` and bumps `other`'s first delay by `3`. -/
theorem chainAt_splice_spec {E : Type u} (t : Int) (s1 s2 : List (Int × E)) (e1 : E) :
    chainAt t s1 s2 = specPass t s1 ++ bumpFirst (t - delaySum (specPass t s1)) s2 ∧
    chainAt 3 [(5, e1)] s2 = bumpFirst 3 s2 := by
  constructor
  · exact chainAt_eq_spec t s1 s2
  · have h5 : ¬ ((5 : Int) ≤ 3) := by omega
    simp [chainAt, h5, chainAtTail_eq_bumpFirst]

/-! ### Claim C8: coalesce folds same-instant runs -/

theorem coalesceAux_eq_spec {E : Type u} (f : E → E → E) :
    ∀ (rest : List (Int × E)) (h : Int × E),
      coalesceAux f h rest
        = (h.1, ((zeroRun rest).1).foldl f h.2) :: coalesceSpec f (zeroRun rest).2 := by
  intro rest
  induction rest with
  | nil =>
    intro h
    obtain ⟨d, e⟩ := h
    simp [coalesceAux, zeroRun, coalesceSpec]
  | cons h2 r ih =>
    intro h
    obtain ⟨d1, e1⟩ := h
    obtain ⟨d2, e2⟩ := h2
    by_cases hz : d2 = 0
    · simp only [coalesceAux, hz, if_true, ih (d1, f e1 e2), zeroRun, List.foldl_cons]
    · simp only [coalesceAux, hz, if_false, ih (d2, e2), zeroRun]
      rw [coalesceSpec]
      simp [zeroRun, hz]

/-- C8: `coalesce(reduce)` replaces each maximal run of an event followed by
consecutive delay-`0` events with a single event carrying the run's first
delay and the left fold of `reduce` over the run's values in order; events not
followed by delay-`0` events pass through unchanged; concretely, coalescing
`[(2,1),(0,2),(0,3),(4,9)]` with addition yields `[(2,6),(4,9)]`. -/
theorem coalesce_folds_runs {E : Type u} (f : E → E → E) (l : List (Int × E)) :
    coalesce f l = coalesceSpec f l ∧
    coalesce (fun a b => a + b) [((2 : Int), (1 : Nat)), (0, 2), (0, 3), (4, 9)]
      = [(2, 6), (4, 9)] := by
  constructor
  · cases l with
    | nil => simp [coalesce, coalesceSpec]
    | cons h rest =>
      obtain ⟨d, e⟩ := h
      rw [coalesce, coalesceAux_eq_spec, coalesceSpec]
  · decide

/-! ### Claim C10: flatten drops the delay of empty batches -/

/-- C10: in `flatten`, an event `(d, c)` with empty collection `c` contributes
no output events and its delay `d` is discarded entirely (so the result is the
same as if the batch were removed, even in the middle of a stream), while a
non-empty collection explodes into a first event carrying `d` and the
remaining values at delay `0`. -/
theorem flatten_drops_empty_batches {A : Type u} (d : Int) (v : A) (vs : List A)
    (pre post : List (Int × List A)) :
    flatten ((d, ([] : List A)) :: post) = flatten post ∧
    flatten (pre ++ (d, ([] : List A)) :: post) = flatten (pre ++ post) ∧
    flatten ((d, v :: vs) :: post)
      = (d, v) :: vs.map (fun x => ((0 : Int), x)) ++ flatten post := by
  refine ⟨rfl, ?_, rfl⟩
  induction pre with
  | nil => rfl
  | cons h rest ih =>
    obtain ⟨d2, es⟩ := h
    simp [flatten, ih]

/-! ### Lemmas about `toAbs`, `delaySum` and non-negativity -/

theorem nonnegDelays_cons {E : Type u} {d : Int} {e : E} {l : List (Int × E)} :
    nonnegDelays ((d, e) :: l) ↔ 0 ≤ d ∧ nonnegDelays l := by
  simp [nonnegDelays]

theorem toAbs_add {E : Type u} :
    ∀ (l : List (Int × E)) (a b : Int),
      (toAbs a l).map (fun p => (p.1 + b, p.2)) = toAbs (a + b) l := by
  intro l
  induction l with
  | nil => intro a b; rfl
  | cons h rest ih =>
    intro a b
    obtain ⟨d, e⟩ := h
    simp only [toAbs, List.map_cons, ih (a + d) b]
    have h1 : a + d + b = a + b + d := by omega
    rw [h1]

theorem toAbs_shift {E : Type u} (t0 : Int) (l : List (Int × E)) :
    toAbs t0 l = (toAbs 0 l).map (fun p => (p.1 + t0, p.2)) := by
  have h := toAbs_add l 0 t0
  rw [zero_add] at h
  exact h.symm

theorem toAbs_rebase {E : Type u} (t0 : Int) (l : List (Int × E)) :
    (toAbs t0 l).map (fun p => (p.1 - t0, p.2)) = toAbs 0 l := by
  rw [toAbs_shift t0 l, List.map_map]
  have h : ((fun p : Int × E => (p.1 - t0, p.2)) ∘ fun p : Int × E => (p.1 + t0, p.2))
      = fun p : Int × E => p := by
    funext p
    simp
  rw [h]
  simp

theorem delaySum_nonneg {E : Type u} {l : List (Int × E)} (h : nonnegDelays l) :
    0 ≤ delaySum l := by
  induction l with
  | nil => simp [delaySum]
  | cons p rest ih =>
    obtain ⟨d, e⟩ := p
    rw [nonnegDelays_cons] at h
    have := ih h.2
    simp only [delaySum, List.foldr_cons] at this ⊢
    omega

theorem delaySum_cons {E : Type u} (d : Int) (e : E) (l : List (Int × E)) :
    delaySum ((d, e) :: l) = d + delaySum l := by
  simp [delaySum]

theorem mem_toAbs_lower {E : Type u} :
    ∀ (l : List (Int × E)) (t0 : Int), nonnegDelays l →
      ∀ p ∈ toAbs t0 l, t0 ≤ p.1 := by
  intro l
  induction l with
  | nil => intro t0 _ p hp; simp [toAbs] at hp
  | cons h rest ih =>
    intro t0 hnn p hp
    obtain ⟨d, e⟩ := h
    rw [nonnegDelays_cons] at hnn
    simp only [toAbs, List.mem_cons] at hp
    rcases hp with hp | hp
    · rw [hp]
      simp
      omega
    · have := ih (t0 + d) hnn.2 p hp
      omega

theorem mem_toAbs_upper {E : Type u} :
    ∀ (l : List (Int × E)) (t0 : Int), nonnegDelays l →
      ∀ p ∈ toAbs t0 l, p.1 ≤ t0 + delaySum l := by
  intro l
  induction l with
  | nil => intro t0 _ p hp; simp [toAbs] at hp
  | cons h rest ih =>
    intro t0 hnn p hp
    obtain ⟨d, e⟩ := h
    rw [nonnegDelays_cons] at hnn
    simp only [toAbs, List.mem_cons] at hp
    rw [delaySum_cons]
    rcases hp with hp | hp
    · have := delaySum_nonneg hnn.2
      rw [hp]
      simp
      omega
    · have := ih (t0 + d) hnn.2 p hp
      omega

theorem toAbs_append {E : Type u} :
    ∀ (A B : List (Int × E)) (t0 : Int),
      toAbs t0 (A ++ B) = toAbs t0 A ++ toAbs (t0 + delaySum A) B := by
  intro A
  induction A with
  | nil => intro B t0; simp [toAbs, delaySum]
  | cons h rest ih =>
    intro B t0
    obtain ⟨d, e⟩ := h
    show (t0 + d, e) :: toAbs (t0 + d) (rest ++ B)
        = (t0 + d, e) :: (toAbs (t0 + d) rest ++ toAbs (t0 + delaySum ((d, e) :: rest)) B)
    rw [ih B (t0 + d), delaySum_cons]
    have h1 : t0 + d + delaySum rest = t0 + (d + delaySum rest) := by omega
    rw [h1]

theorem toAbs_bumpFirst {E : Type u} :
    ∀ (l : List (Int × E)) (t0 x : Int),
      toAbs t0 (bumpFirst x l) = toAbs (t0 + x) l := by
  intro l t0 x
  cases l with
  | nil => rfl
  | cons h rest =>
    obtain ⟨d, e⟩ := h
    simp only [bumpFirst, toAbs, List.cons.injEq]
    have h1 : t0 + (d + x) = t0 + x + d := by omega
    rw [h1]
    simp

theorem drop_zero {E : Type u} {s : List (Int × E)} (h : nonnegDelays s) :
    drop 0 s = s := by
  induction s with
  | nil => rfl
  | cons p rest ih =>
    obtain ⟨d, e⟩ := p
    rw [nonnegDelays_cons] at h
    simp [drop, h.1, ih h.2]

theorem specPass_of_sum_le {E : Type u} :
    ∀ (l : List (Int × E)) (t : Int), nonnegDelays l → delaySum l ≤ t →
      specPass t l = l := by
  intro l
  induction l with
  | nil => intro t _ _; rfl
  | cons p rest ih =>
    intro t hnn hsum
    obtain ⟨d, e⟩ := p
    rw [nonnegDelays_cons] at hnn
    rw [delaySum_cons] at hsum
    have hrest := delaySum_nonneg hnn.2
    have hd : d ≤ t := by omega
    have hrec : delaySum rest ≤ t - d := by omega
    simp [specPass, hd, ih (t - d) hnn.2 hrec]

/-! ### Non-negativity preservation (claim C9) -/

theorem nonnegDelays_nil {E : Type u} : nonnegDelays ([] : List (Int × E)) := by
  simp [nonnegDelays]

theorem nonneg_chainAtTail {E : Type u} {t : Int} {s : List (Int × E)}
    (ht : 0 ≤ t) (hs : nonnegDelays s) : nonnegDelays (chainAtTail t s) := by
  cases s with
  | nil => exact nonnegDelays_nil
  | cons h rest =>
    obtain ⟨d, e⟩ := h
    rw [nonnegDelays_cons] at hs
    simp only [chainAtTail, chainAtTail_zero]
    rw [nonnegDelays_cons]
    exact ⟨by omega, hs.2⟩

theorem nonneg_chainAt {E : Type u} :
    ∀ (s1 : List (Int × E)) (t : Int) (s2 : List (Int × E)), 0 ≤ t →
      nonnegDelays s1 → nonnegDelays s2 → nonnegDelays (chainAt t s1 s2) := by
  intro s1
  induction s1 with
  | nil => intro t s2 ht _ h2; exact nonneg_chainAtTail ht h2
  | cons h rest ih =>
    intro t s2 ht h1 h2
    obtain ⟨d, e⟩ := h
    rw [nonnegDelays_cons] at h1
    by_cases hd : d ≤ t
    · simp only [chainAt, hd, if_true]
      rw [nonnegDelays_cons]
      exact ⟨h1.1, ih (t - d) s2 (by omega) h1.2 h2⟩
    · simp only [chainAt, hd, if_false]
      exact nonneg_chainAtTail ht h2

theorem nonneg_drop {E : Type u} :
    ∀ (s : List (Int × E)) (t : Int), 0 ≤ t → nonnegDelays s →
      nonnegDelays (drop t s) := by
  intro s
  induction s with
  | nil => intro t _ _; exact nonnegDelays_nil
  | cons h rest ih =>
    intro t ht hs
    obtain ⟨d, e⟩ := h
    rw [nonnegDelays_cons] at hs
    by_cases hd : t ≤ d
    · simp only [drop, hd, if_true]
      rw [nonnegDelays_cons]
      exact ⟨by omega, by rw [drop_zero hs.2]; exact hs.2⟩
    · simp only [drop, hd, if_false]
      exact ih (t - d) (by omega) hs.2

theorem nonneg_coalesceAux {E : Type u} (f : E → E → E) :
    ∀ (rest : List (Int × E)) (h : Int × E), 0 ≤ h.1 → nonnegDelays rest →
      nonnegDelays (coalesceAux f h rest) := by
  intro rest
  induction rest with
  | nil =>
    intro h hh _
    simpa [coalesceAux, nonnegDelays] using hh
  | cons h2 r ih =>
    intro h hh hr
    obtain ⟨d1, e1⟩ := h
    obtain ⟨d2, e2⟩ := h2
    rw [nonnegDelays_cons] at hr
    by_cases hz : d2 = 0
    · simp only [coalesceAux, hz, if_true]
      exact ih (d1, f e1 e2) hh hr.2
    · simp only [coalesceAux, hz, if_false]
      rw [nonnegDelays_cons]
      exact ⟨hh, ih (d2, e2) hr.1 hr.2⟩

theorem nonneg_coalesce {E : Type u} (g : E → E → E) (s : List (Int × E))
    (h : nonnegDelays s) : nonnegDelays (coalesce g s) := by
  cases s with
  | nil => exact nonnegDelays_nil
  | cons p rest =>
    obtain ⟨d, e⟩ := p
    rw [nonnegDelays_cons] at h
    exact nonneg_coalesceAux g rest (d, e) h.1 h.2

theorem nonneg_merge {E : Type u} :
    ∀ (s1 s2 : List (Int × E)), nonnegDelays s1 → nonnegDelays s2 →
      nonnegDelays (merge s1 s2) := by
  intro s1 s2
  induction s1, s2 using merge.induct with
  | case1 s2 => intro _ h2; simpa [merge] using h2
  | case2 s1 h => intro h1 _; simpa [merge] using h1
  | case3 d1 e1 s1 d2 e2 s2 hle ih =>
    intro h1 h2
    rw [nonnegDelays_cons] at h1 h2
    simp only [merge, hle, if_true]
    rw [nonnegDelays_cons]
    refine ⟨h1.1, ih h1.2 ?_⟩
    rw [nonnegDelays_cons]
    exact ⟨by omega, h2.2⟩
  | case4 d1 e1 s1 d2 e2 s2 hle ih =>
    intro h1 h2
    rw [nonnegDelays_cons] at h1 h2
    simp only [merge, hle, if_false]
    rw [nonnegDelays_cons]
    refine ⟨h2.1, ih ?_ h2.2⟩
    rw [nonnegDelays_cons]
    exact ⟨by omega, h1.2⟩

theorem nonneg_flatten {E : Type u} :
    ∀ bs : List (Int × List E), nonnegDelays bs → nonnegDelays (flatten bs) := by
  intro bs
  induction bs with
  | nil => intro _; exact nonnegDelays_nil
  | cons h rest ih =>
    intro hb
    obtain ⟨d, es⟩ := h
    rw [nonnegDelays_cons] at hb
    intro p hp
    simp only [flatten, List.mem_append] at hp
    rcases hp with hp | hp
    · cases es with
      | nil => simp [flattenBatch] at hp
      | cons v vs =>
        simp only [flattenBatch, List.mem_cons, List.mem_map] at hp
        rcases hp with hp | ⟨x, _, hx⟩
        · rw [hp]; exact hb.1
        · rw [← hx]
    · exact ih hb.2 p hp

theorem nonneg_foldl_merge {E : Type u} :
    ∀ (ss : List (List (Int × E))) (acc : List (Int × E)), nonnegDelays acc →
      (∀ s ∈ ss, nonnegDelays s) → nonnegDelays (ss.foldl merge acc) := by
  intro ss
  induction ss with
  | nil => intro acc h _; simpa using h
  | cons s rest ih =>
    intro acc hacc hss
    simp only [List.foldl_cons]
    exact ih (merge acc s) (nonneg_merge acc s hacc (hss s (by simp)))
      (fun q hq => hss q (by simp [hq]))

theorem nonneg_mergeAll {E : Type u} (ss : List (List (Int × E)))
    (h : ∀ s ∈ ss, nonnegDelays s) : nonnegDelays (mergeAll ss) := by
  cases ss with
  | nil => exact nonnegDelays_nil
  | cons s rest =>
    exact nonneg_foldl_merge rest s (h s (by simp)) (fun q hq => h q (by simp [hq]))

theorem nonneg_replayN {E : Type u} (sample : List (Int × E)) (t : Int)
    (hs : nonnegDelays sample) (ht : 0 ≤ t) :
    ∀ n, nonnegDelays (replayN sample t n) := by
  intro n
  induction n with
  | zero => exact nonnegDelays_nil
  | succ n ih => exact nonneg_chainAt sample t _ ht hs ih

theorem nonneg_map {E : Type u} {F : Type v} (f : E → F) (s : List (Int × E))
    (h : nonnegDelays s) : nonnegDelays (map f s) := by
  intro p hp
  simp only [map, List.mem_map] at hp
  obtain ⟨q, hq, hpq⟩ := hp
  rw [← hpq]
  exact h q hq

theorem nonneg_chain {E : Type u} {s1 s2 : List (Int × E)}
    (h1 : nonnegDelays s1) (h2 : nonnegDelays s2) : nonnegDelays (chain s1 s2) := by
  intro p hp
  rcases List.mem_append.mp hp with hp | hp
  · exact h1 p hp
  · exact h2 p hp

/-- C9: given inputs whose delays are non-negative (and non-negative duration
arguments), every combinator of the library — map, flatten, chain, chain_at,
take, drop, delay, coalesce, merge, merge_all, repeat_every — emits only
non-negative delays: each internal duration subtraction happens under a guard
making the minuend at least the subtrahend, so no underflow occurs. -/
theorem combinators_delay_nonneg {E : Type u} {F : Type v} (t : Int)
    (s1 s2 : List (Int × E)) (bs : List (Int × List E)) (f : E → F) (g : E → E → E)
    (ss : List (List (Int × E)))
    (ht : 0 ≤ t) (h1 : nonnegDelays s1) (h2 : nonnegDelays s2)
    (hbs : nonnegDelays bs) (hss : ∀ s ∈ ss, nonnegDelays s) :
    nonnegDelays (map f s1) ∧ nonnegDelays (flatten bs) ∧ nonnegDelays (chain s1 s2) ∧
    nonnegDelays (chainAt t s1 s2) ∧ nonnegDelays (take t s1) ∧ nonnegDelays (drop t s1) ∧
    nonnegDelays (delay t s1) ∧ nonnegDelays (coalesce g s1) ∧ nonnegDelays (merge s1 s2) ∧
    nonnegDelays (mergeAll ss) ∧ ∀ n, nonnegDelays (repeatEveryN s1 t n) :=
  ⟨nonneg_map f s1 h1, nonneg_flatten bs hbs, nonneg_chain h1 h2,
    nonneg_chainAt s1 t s2 ht h1 h2, nonneg_chainAt s1 t [] ht h1 nonnegDelays_nil,
    nonneg_drop s1 t ht h1, nonneg_chainAt [] t s1 ht nonnegDelays_nil h1,
    nonneg_coalesce g s1 h1, nonneg_merge s1 s2 h1 h2, nonneg_mergeAll ss hss,
    fun n => nonneg_replayN (take t s1) t
      (nonneg_chainAt s1 t [] ht h1 nonnegDelays_nil) ht n⟩

/-- Witness for `combinators_delay_nonneg` at concrete inputs. -/
theorem combinators_delay_nonneg_witness :
    ((0 : Int) ≤ 2 ∧ nonnegDelays [((1 : Int), (5 : Nat))] ∧
      nonnegDelays [((0 : Int), (3 : Nat))] ∧
      nonnegDelays [((1 : Int), [(2 : Nat), 3])] ∧
      (∀ s ∈ [[((1 : Int), (1 : Nat))], [(2, 2)]], nonnegDelays s)) ∧
    (nonnegDelays (map Nat.succ [((1 : Int), (5 : Nat))]) ∧
      nonnegDelays (flatten [((1 : Int), [(2 : Nat), 3])]) ∧
      nonnegDelays (chain [((1 : Int), (5 : Nat))] [(0, 3)]) ∧
      nonnegDelays (chainAt 2 [((1 : Int), (5 : Nat))] [(0, 3)]) ∧
      nonnegDelays (take 2 [((1 : Int), (5 : Nat))]) ∧
      nonnegDelays (drop 2 [((1 : Int), (5 : Nat))]) ∧
      nonnegDelays (delay 2 [((1 : Int), (5 : Nat))]) ∧
      nonnegDelays (coalesce Nat.add [((1 : Int), (5 : Nat))]) ∧
      nonnegDelays (merge [((1 : Int), (5 : Nat))] [(0, 3)]) ∧
      nonnegDelays (mergeAll [[((1 : Int), (1 : Nat))], [(2, 2)]]) ∧
      ∀ n, nonnegDelays (repeatEveryN [((1 : Int), (5 : Nat))] 2 n)) :=
  ⟨⟨by decide, by decide, by decide, by decide, by decide⟩,
    combinators_delay_nonneg 2 [((1 : Int), (5 : Nat))] [(0, 3)] [((1 : Int), [(2 : Nat), 3])]
      Nat.succ Nat.add [[((1 : Int), (1 : Nat))], [(2, 2)]]
      (by decide) (by decide) (by decide) (by decide) (by decide)⟩

/-! ### Merge as a stable absolute-time interleave (claim C3) -/

/-- The relative-delay `Merge` iterator computes exactly the stable
absolute-time merge of the two absolute-time views. -/
theorem toAbs_merge {E : Type u} :
    ∀ (s1 s2 : List (Int × E)) (t0 : Int),
      toAbs t0 (merge s1 s2) = mergeAbs (toAbs t0 s1) (toAbs t0 s2) := by
  intro s1 s2
  induction s1, s2 using merge.induct with
  | case1 s2 =>
    intro t0
    simp [merge, toAbs, mergeAbs]
  | case2 s1 h =>
    intro t0
    cases s1 with
    | nil => exact absurd rfl h
    | cons p rest =>
      obtain ⟨d, e⟩ := p
      simp [merge, toAbs, mergeAbs]
  | case3 d1 e1 s1 d2 e2 s2 hle ih =>
    intro t0
    have hle2 : t0 + d1 ≤ t0 + d2 := by omega
    simp only [merge, hle, if_true, toAbs, mergeAbs, hle2]
    have harith : t0 + d1 + (d2 - d1) = t0 + d2 := by omega
    rw [ih (t0 + d1)]
    simp only [toAbs, harith]
  | case4 d1 e1 s1 d2 e2 s2 hle ih =>
    intro t0
    have hle2 : ¬ (t0 + d1 ≤ t0 + d2) := by omega
    simp only [merge, hle, if_false, toAbs, mergeAbs, hle2]
    have harith : t0 + d2 + (d1 - d2) = t0 + d1 := by omega
    rw [ih (t0 + d2)]
    simp only [toAbs, harith]

/-- The stable absolute-time merge is a permutation of the concatenation. -/
theorem mergeAbs_perm {E : Type u} :
    ∀ l1 l2 : List (Int × E), List.Perm (mergeAbs l1 l2) (l1 ++ l2) := by
  intro l1 l2
  induction l1, l2 using mergeAbs.induct with
  | case1 l2 => simp [mergeAbs]
  | case2 l1 h =>
    cases l1 with
    | nil => exact absurd rfl h
    | cons p rest =>
      obtain ⟨t1, e1⟩ := p
      simp [mergeAbs]
  | case3 t1 e1 l1 t2 e2 l2 hle ih =>
    simp only [mergeAbs, hle, if_true, List.cons_append]
    exact ih.cons (t1, e1)
  | case4 t1 e1 l1 t2 e2 l2 hle ih =>
    simp only [mergeAbs, hle, if_false]
    exact (ih.cons (t2, e2)).trans List.perm_middle.symm

theorem mem_mergeAbs {E : Type u} {l1 l2 : List (Int × E)} {p : Int × E} :
    p ∈ mergeAbs l1 l2 ↔ p ∈ l1 ++ l2 :=
  (mergeAbs_perm l1 l2).mem_iff

/-- The stable absolute-time merge of two time-sorted lists is time-sorted. -/
theorem pairwise_mergeAbs {E : Type u} :
    ∀ l1 l2 : List (Int × E),
      List.Pairwise (fun p q => p.1 ≤ q.1) l1 →
      List.Pairwise (fun p q => p.1 ≤ q.1) l2 →
      List.Pairwise (fun p q => p.1 ≤ q.1) (mergeAbs l1 l2) := by
  intro l1 l2
  induction l1, l2 using mergeAbs.induct with
  | case1 l2 =>
    intro _ h2
    simpa [mergeAbs] using h2
  | case2 l1 h =>
    intro h1 _
    cases l1 with
    | nil => exact absurd rfl h
    | cons p rest =>
      obtain ⟨t1, e1⟩ := p
      simpa [mergeAbs] using h1
  | case3 t1 e1 l1 t2 e2 l2 hle ih =>
    intro h1 h2
    rw [List.pairwise_cons] at h1
    simp only [mergeAbs, hle, if_true]
    rw [List.pairwise_cons]
    refine ⟨?_, ih h1.2 h2⟩
    intro p hp
    rcases List.mem_append.mp (mem_mergeAbs.mp hp) with hp | hp
    · exact h1.1 p hp
    · rw [List.pairwise_cons] at h2
      rcases List.mem_cons.mp hp with hp | hp
      · rw [hp]; exact hle
      · exact le_trans hle (h2.1 p hp)
  | case4 t1 e1 l1 t2 e2 l2 hle ih =>
    intro h1 h2
    rw [List.pairwise_cons] at h2
    simp only [mergeAbs, hle, if_false]
    rw [List.pairwise_cons]
    refine ⟨?_, ih h1 h2.2⟩
    intro p hp
    rcases List.mem_append.mp (mem_mergeAbs.mp hp) with hp | hp
    · rw [List.pairwise_cons] at h1
      rcases List.mem_cons.mp hp with hp | hp
      · rw [hp]; omega
      · have := h1.1 p hp
        omega
    · exact h2.1 p hp

/-- The absolute-time view of a non-negative-delay list is time-sorted. -/
theorem pairwise_toAbs {E : Type u} :
    ∀ (l : List (Int × E)) (t0 : Int), nonnegDelays l →
      List.Pairwise (fun p q => p.1 ≤ q.1) (toAbs t0 l) := by
  intro l
  induction l with
  | nil => intro t0 _; simp [toAbs]
  | cons h rest ih =>
    intro t0 hnn
    obtain ⟨d, e⟩ := h
    rw [nonnegDelays_cons] at hnn
    simp only [toAbs]
    rw [List.pairwise_cons]
    exact ⟨mem_toAbs_lower rest (t0 + d) hnn.2, ih (t0 + d) hnn.2⟩

/-- C3: `merge` is a stable absolute-time interleave: its absolute-time view
is the stable merge (ties favouring the left operand) of the two operands'
absolute-time views; the output contains exactly the events of both operands
and is in nondecreasing absolute-time order (given non-negative delays);
concretely `merge [(1,a),(3,b)] [(2,x),(1,y)] = [(1,a),(1,x),(1,y),(1,b)]`. -/
theorem merge_stable_interleave {E : Type u} (s1 s2 : List (Int × E))
    (h1 : nonnegDelays s1) (h2 : nonnegDelays s2) :
    toAbs 0 (merge s1 s2) = mergeAbs (toAbs 0 s1) (toAbs 0 s2) ∧
    List.Perm (toAbs 0 (merge s1 s2)) (toAbs 0 s1 ++ toAbs 0 s2) ∧
    List.Pairwise (fun p q => p.1 ≤ q.1) (toAbs 0 (merge s1 s2)) ∧
    merge [((1 : Int), (0 : Nat)), (3, 1)] [(2, 2), (1, 3)]
      = [(1, 0), (1, 2), (1, 3), (1, 1)] := by
  refine ⟨toAbs_merge s1 s2 0, ?_, ?_, ?_⟩
  · rw [toAbs_merge s1 s2 0]
    exact mergeAbs_perm _ _
  · rw [toAbs_merge s1 s2 0]
    exact pairwise_mergeAbs _ _ (pairwise_toAbs s1 0 h1) (pairwise_toAbs s2 0 h2)
  · norm_num [merge]

/-- Witness for `merge_stable_interleave` at the spec's concrete example. -/
theorem merge_stable_interleave_witness :
    (nonnegDelays [((1 : Int), (0 : Nat)), (3, 1)] ∧
      nonnegDelays [((2 : Int), (2 : Nat)), (1, 3)]) ∧
    (toAbs 0 (merge [((1 : Int), (0 : Nat)), (3, 1)] [(2, 2), (1, 3)])
        = mergeAbs (toAbs 0 [((1 : Int), (0 : Nat)), (3, 1)]) (toAbs 0 [(2, 2), (1, 3)]) ∧
      List.Perm (toAbs 0 (merge [((1 : Int), (0 : Nat)), (3, 1)] [(2, 2), (1, 3)]))
        (toAbs 0 [((1 : Int), (0 : Nat)), (3, 1)] ++ toAbs 0 [(2, 2), (1, 3)]) ∧
      List.Pairwise (fun p q => p.1 ≤ q.1)
        (toAbs 0 (merge [((1 : Int), (0 : Nat)), (3, 1)] [(2, 2), (1, 3)])) ∧
      merge [((1 : Int), (0 : Nat)), (3, 1)] [(2, 2), (1, 3)]
        = [(1, 0), (1, 2), (1, 3), (1, 1)]) :=
  ⟨⟨by decide, by decide⟩,
    merge_stable_interleave [((1 : Int), (0 : Nat)), (3, 1)] [(2, 2), (1, 3)]
      (by decide) (by decide)⟩

/-! ### take/drop complementarity (claim C1) -/

/-- Splicing `take d` and `drop d` of the same list back together with
`chain_at d` reconstructs the list exactly, provided no event sits at
cumulative delay exactly `d`. -/
theorem take_drop_core {E : Type u} :
    ∀ (s : List (Int × E)) (d : Int), nonnegDelays s →
      (∀ p ∈ toAbs 0 s, p.1 ≠ d) →
      chainAt d (take d s) (drop d s) = s := by
  intro s
  induction s with
  | nil =>
    intro d _ _
    simp [take, drop, chainAt, chainAtTail]
  | cons h rest ih =>
    intro d hnn hb
    obtain ⟨del, e⟩ := h
    rw [nonnegDelays_cons] at hnn
    have hne : del ≠ d := by
      have := hb (0 + del, e) (by simp [toAbs])
      simpa using this
    by_cases hle : del ≤ d
    · have hdle : ¬ (d ≤ del) := by omega
      have hb2 : ∀ p ∈ toAbs 0 rest, p.1 ≠ d - del := by
        intro p hp hpd
        have hmem : ((p.1 + del, p.2) : Int × E) ∈ toAbs del rest := by
          rw [toAbs_shift del rest]
          exact List.mem_map.mpr ⟨p, hp, rfl⟩
        have hmem2 : ((p.1 + del, p.2) : Int × E) ∈ toAbs 0 ((del, e) :: rest) := by
          simp only [toAbs, zero_add, List.mem_cons]
          exact Or.inr hmem
        have hne2 := hb _ hmem2
        simp only at hne2
        exact hne2 (by omega)
      have ihh := ih (d - del) hnn.2 hb2
      simp only [take] at ihh ⊢
      simp only [chainAt, hle, if_true, drop, hdle, if_false]
      exact congrArg (List.cons (del, e)) ihh
    · have hdle : d ≤ del := by omega
      simp only [take, chainAt, hle, if_false, chainAtTail, drop, hdle, if_true,
        drop_zero hnn.2, chainAtTail_zero]
      have harith : del - d + d = del := by omega
      rw [harith]

/-- C1 (amended): for a sequence `S` with non-negative delays and no event at
cumulative delay exactly `d`, splicing `S.take(d)` and `S.drop(d)` back
together with `chain_at(d, ·)` reproduces `S` exactly — every event once, at
its original absolute time.  (Plain concatenation does not preserve absolute
times, and an event at cumulative delay exactly `d` is emitted by both
`take(d)` and `drop(d)`; see the counterexample.) -/
theorem take_drop_splice_exact {E : Type u} (d : Int) (s : List (Int × E))
    (hnn : nonnegDelays s) (hb : ∀ p ∈ toAbs 0 s, p.1 ≠ d) :
    chainAt d (take d s) (drop d s) = s ∧
    toAbs 0 (chainAt d (take d s) (drop d s)) = toAbs 0 s := by
  have h := take_drop_core s d hnn hb
  exact ⟨h, by rw [h]⟩

/-- C1 counterexample: for `S = [(3, b)]` and `d = 3` the event at cumulative
delay exactly `3` passes both `take`'s `≤`-guard and `drop`'s `≥`-guard, so it
appears in both parts and is duplicated — whether the parts are joined by
plain concatenation (`chain`) or by the `chain_at(3, ·)` splice, the result is
not a permutation of `S`'s absolute-time events. -/
theorem take_drop_boundary_duplicated :
    ¬ List.Perm
        (toAbs 0 (chain (take 3 [((3 : Int), (0 : Nat))]) (drop 3 [((3 : Int), (0 : Nat))])))
        (toAbs 0 [((3 : Int), (0 : Nat))]) ∧
    ¬ List.Perm
        (toAbs 0 (chainAt 3 (take 3 [((3 : Int), (0 : Nat))]) (drop 3 [((3 : Int), (0 : Nat))])))
        (toAbs 0 [((3 : Int), (0 : Nat))]) ∧
    ¬ List.Perm
        (toAbs 0 (chain (take 3 [((1 : Int), (10 : Nat)), (5, 11)])
          (drop 3 [((1 : Int), (10 : Nat)), (5, 11)])))
        (toAbs 0 [((1 : Int), (10 : Nat)), (5, 11)]) := by
  decide

/-- Witness for `take_drop_splice_exact` at a concrete boundary-free input. -/
theorem take_drop_splice_exact_witness :
    (nonnegDelays [((1 : Int), (10 : Nat)), (5, 11)] ∧
      ∀ p ∈ toAbs 0 [((1 : Int), (10 : Nat)), (5, 11)], p.1 ≠ 3) ∧
    (chainAt 3 (take 3 [((1 : Int), (10 : Nat)), (5, 11)])
        (drop 3 [((1 : Int), (10 : Nat)), (5, 11)]) = [((1 : Int), (10 : Nat)), (5, 11)] ∧
      toAbs 0 (chainAt 3 (take 3 [((1 : Int), (10 : Nat)), (5, 11)])
          (drop 3 [((1 : Int), (10 : Nat)), (5, 11)]))
        = toAbs 0 [((1 : Int), (10 : Nat)), (5, 11)]) :=
  ⟨⟨by decide, by decide⟩,
    take_drop_splice_exact 3 [((1 : Int), (10 : Nat)), (5, 11)] (by decide) (by decide)⟩

/-! ### repeat_every periodicity (claim C4) -/

theorem delaySum_take_le {E : Type u} :
    ∀ (s : List (Int × E)) (t : Int), nonnegDelays s → 0 ≤ t →
      delaySum (take t s) ≤ t := by
  intro s
  induction s with
  | nil => intro t _ ht; simpa [take, chainAt, chainAtTail, delaySum] using ht
  | cons h rest ih =>
    intro t hnn ht
    obtain ⟨d, e⟩ := h
    rw [nonnegDelays_cons] at hnn
    by_cases hd : d ≤ t
    · show delaySum (chainAt t ((d, e) :: rest) []) ≤ t
      simp only [chainAt, hd, if_true, delaySum_cons]
      have hrec := ih (t - d) hnn.2 (by omega)
      simp only [take] at hrec
      omega
    · show delaySum (chainAt t ((d, e) :: rest) []) ≤ t
      simp only [chainAt, hd, if_false, chainAtTail]
      simpa [delaySum] using ht

/-- Unrolled replay in absolute time: when the whole sample fits in the
interval, each unrolling step contributes one full copy of the sample, one
interval later than the previous copy. -/
theorem replay_periods {E : Type u} (sample : List (Int × E)) (T : Int)
    (hs : nonnegDelays sample) (hsum : delaySum sample ≤ T) :
    ∀ (n : Nat) (t0 : Int), toAbs t0 (replayN sample T n) = periodsAbs sample T t0 n := by
  intro n
  induction n with
  | zero => intro t0; rfl
  | succ n ih =>
    intro t0
    show toAbs t0 (chainAt T sample (replayN sample T n))
        = toAbs t0 sample ++ periodsAbs sample T (t0 + T) n
    rw [chainAt_eq_spec T sample (replayN sample T n), specPass_of_sum_le sample T hs hsum,
      toAbs_append, toAbs_bumpFirst]
    have harith : t0 + delaySum sample + (T - delaySum sample) = t0 + T := by omega
    rw [harith, ih (t0 + T)]

theorem window_append {E : Type u} (lo hi : Int) (A B : List (Int × E)) :
    window lo hi (A ++ B) = window lo hi A ++ window lo hi B := by
  simp [window, List.filter_append]

theorem window_all_inside {E : Type u} (l : List (Int × E)) (lo hi : Int)
    (h : ∀ p ∈ l, lo ≤ p.1 ∧ p.1 < hi) :
    window lo hi l = l.map (fun p => (p.1 - lo, p.2)) := by
  have hf : List.filter (fun p => decide (lo ≤ p.1) && decide (p.1 < hi)) l = l :=
    List.filter_eq_self.mpr (by
      intro a ha
      simp only [Bool.and_eq_true, decide_eq_true_eq]
      exact h a ha)
  simp [window, hf]

theorem window_nil_of_outside {E : Type u} (l : List (Int × E)) (lo hi : Int)
    (h : ∀ p ∈ l, p.1 < lo ∨ hi ≤ p.1) :
    window lo hi l = [] := by
  have hf : List.filter (fun p => decide (lo ≤ p.1) && decide (p.1 < hi)) l = [] :=
    List.filter_eq_nil_iff.mpr (by
      intro a ha
      have := h a ha
      simp only [Bool.and_eq_true, decide_eq_true_eq, not_and, not_lt]
      omega)
  simp [window, hf]

theorem mem_periodsAbs_lower {E : Type u} (sample : List (Int × E)) (T : Int)
    (hs : ∀ q ∈ toAbs 0 sample, 0 ≤ q.1) (hT : 0 ≤ T) :
    ∀ (n : Nat) (t0 : Int), ∀ p ∈ periodsAbs sample T t0 n, t0 ≤ p.1 := by
  intro n
  induction n with
  | zero => intro t0 p hp; simp [periodsAbs] at hp
  | succ n ih =>
    intro t0 p hp
    rcases List.mem_append.mp hp with hp | hp
    · rw [toAbs_shift t0 sample] at hp
      obtain ⟨q, hq, hpq⟩ := List.mem_map.mp hp
      have := hs q hq
      rw [← hpq]
      simp only
      omega
    · have := ih (t0 + T) p hp
      omega

/-- Each period window of the unrolled replay contains exactly one rebased
copy of the sample, provided all sample events fall strictly inside one
interval. -/
theorem window_periodsAbs {E : Type u} (sample : List (Int × E)) (T : Int)
    (hT : 0 ≤ T) (hin : ∀ p ∈ toAbs 0 sample, 0 ≤ p.1 ∧ p.1 < T) :
    ∀ (n k : Nat) (t0 : Int), k < n →
      window (t0 + (k : Int) * T) (t0 + ((k : Int) + 1) * T) (periodsAbs sample T t0 n)
        = toAbs 0 sample := by
  intro n
  induction n with
  | zero => intro k t0 hk; exact absurd hk (Nat.not_lt_zero k)
  | succ n ih =>
    intro k t0 hk
    have hmem : ∀ p ∈ toAbs t0 sample, t0 ≤ p.1 ∧ p.1 < t0 + T := by
      intro p hp
      rw [toAbs_shift t0 sample] at hp
      obtain ⟨q, hq, hpq⟩ := List.mem_map.mp hp
      have hq2 := hin q hq
      refine ⟨?_, ?_⟩ <;> rw [← hpq] <;> simp only <;> omega
    show window _ _ (toAbs t0 sample ++ periodsAbs sample T (t0 + T) n) = toAbs 0 sample
    rw [window_append]
    cases k with
    | zero =>
      simp only [Nat.cast_zero, zero_mul, add_zero, zero_add, one_mul]
      rw [window_all_inside (toAbs t0 sample) t0 (t0 + T) hmem, toAbs_rebase]
      have hlow := mem_periodsAbs_lower sample T (fun q hq => (hin q hq).1) hT n (t0 + T)
      rw [window_nil_of_outside (periodsAbs sample T (t0 + T) n) t0 (t0 + T)
        (fun p hp => Or.inr (hlow p hp))]
      simp
    | succ k =>
      push_cast
      have hkT : 0 ≤ (k : Int) * T := mul_nonneg (by positivity) hT
      have hexp : ((k : Int) + 1) * T = (k : Int) * T + T := by ring
      have hout : ∀ p ∈ toAbs t0 sample,
          p.1 < t0 + ((k : Int) + 1) * T ∨ t0 + ((k : Int) + 1 + 1) * T ≤ p.1 := by
        intro p hp
        left
        have h1 := (hmem p hp).2
        omega
      rw [window_nil_of_outside (toAbs t0 sample) _ _ hout]
      have e1 : t0 + ((k : Int) + 1) * T = (t0 + T) + (k : Int) * T := by ring
      have e2 : t0 + ((k : Int) + 1 + 1) * T = (t0 + T) + ((k : Int) + 1) * T := by ring
      rw [e1, e2]
      simpa using ih k (t0 + T) (by omega)

/-- C4 (amended): provided every event of the snapshot `take(T)` falls
strictly before the period boundary (absolute time < `T`), the n-th period of
`repeat_every(T)` — events with absolute times in `[n*T, (n+1)*T)` — is
identical in value and intra-period offset to period 0, which equals
`take(T)`, for every unrolling depth and every period inside it.  (Without
the strictness proviso a snapshot event at exactly `T` falls in the next
half-open window and period 0 differs; see the counterexample.) -/
theorem repeatEvery_periodic_strict {E : Type u} (s : List (Int × E)) (T : Int)
    (hs : nonnegDelays s) (hT : 0 ≤ T)
    (hstrict : ∀ p ∈ toAbs 0 (take T s), p.1 < T) :
    ∀ (n k : Nat), k < n →
      window ((k : Int) * T) (((k : Int) + 1) * T) (toAbs 0 (repeatEveryN s T n))
        = toAbs 0 (take T s) := by
  intro n k hk
  have hsample : nonnegDelays (take T s) := nonneg_chainAt s T [] hT hs nonnegDelays_nil
  have hsum : delaySum (take T s) ≤ T := delaySum_take_le s T hs hT
  have hper := replay_periods (take T s) T hsample hsum n 0
  rw [repeatEveryN, hper]
  have hin : ∀ p ∈ toAbs 0 (take T s), 0 ≤ p.1 ∧ p.1 < T := fun p hp =>
    ⟨mem_toAbs_lower (take T s) 0 hsample p hp, hstrict p hp⟩
  have hwin := window_periodsAbs (take T s) T hT hin n k 0 hk
  simpa using hwin

/-- C4 counterexample: for `S = [(1, b)]` and `T = 1` the snapshot's only
event sits at absolute time exactly `1`, so it lands in window 1, not window
0: period 1 of `repeat_every(1)` is not equal to period 0 (which is empty). -/
theorem repeatEvery_boundary_period_shift :
    ¬ (window ((1 : Int) * 1) (((1 : Int) + 1) * 1)
          (toAbs 0 (repeatEveryN [((1 : Int), (0 : Nat))] 1 2))
        = window ((0 : Int) * 1) (((0 : Int) + 1) * 1)
          (toAbs 0 (repeatEveryN [((1 : Int), (0 : Nat))] 1 2))) := by
  decide

/-- Witness for `repeatEvery_periodic_strict` at a concrete input whose
snapshot stays strictly inside the interval. -/
theorem repeatEvery_periodic_strict_witness :
    (nonnegDelays [((1 : Int), (5 : Nat)), (2, 6)] ∧ (0 : Int) ≤ 4 ∧
      ∀ p ∈ toAbs 0 (take 4 [((1 : Int), (5 : Nat)), (2, 6)]), p.1 < 4) ∧
    (∀ (n k : Nat), k < n →
      window ((k : Int) * 4) (((k : Int) + 1) * 4)
          (toAbs 0 (repeatEveryN [((1 : Int), (5 : Nat)), (2, 6)] 4 n))
        = toAbs 0 (take 4 [((1 : Int), (5 : Nat)), (2, 6)])) :=
  ⟨⟨by decide, by decide, by decide⟩,
    repeatEvery_periodic_strict [((1 : Int), (5 : Nat)), (2, 6)] 4
      (by decide) (by decide) (by decide)⟩

/-! ### Construction-time eagerness of repeat_every (claim C5) -/

/-- C5 counterexample: on the infinite input whose delays are all `0` (a
legal sequence with non-negative delays), the eager
`self.take(interval).into_iter().collect()` performed when `repeat_every(1)`
is constructed never finishes: every pulled event passes the `≤ threshold`
guard without consuming any threshold, so no fuel bound suffices. -/
theorem repeatEvery_construction_diverges_zero :
    constructionDiverges zeroDelays 1 := by
  intro fuel
  induction fuel with
  | zero => intro i; rfl
  | succ fuel ih =>
    intro i
    show collectTake zeroDelays 1 i (fuel + 1) = none
    simp only [collectTake, zeroDelays]
    rw [if_pos (by omega)]
    simp [ih]

theorem collectTake_isSome_of_cum {E : Type u} (f : Nat → Int × E) :
    ∀ (N : Nat) (t : Int) (i : Nat), 0 ≤ t → t < cumFrom f i N →
      (collectTake f t i N).isSome := by
  intro N
  induction N with
  | zero =>
    intro t i ht hcum
    simp [cumFrom] at hcum
    omega
  | succ N ih =>
    intro t i ht hcum
    simp only [cumFrom] at hcum
    show (collectTake f t i (N + 1)).isSome
    simp only [collectTake]
    by_cases hd : (f i).1 ≤ t
    · rw [if_pos hd]
      have hrec := ih (t - (f i).1) (i + 1) (by omega) (by omega)
      obtain ⟨l, hl⟩ := Option.isSome_iff_exists.mp hrec
      rw [hl]
      rfl
    · rw [if_neg hd]
      rfl

/-- C5 (amended): constructing `repeat_every(interval)` eagerly materializes
the snapshot `take(interval)`; the construction-time pull loop finishes
whenever the input's cumulative delay exceeds the interval after finitely
many events (fuel `N` suffices as soon as the first `N` delays sum past the
threshold), but it is not lazy: on an infinite input whose delays never sum
past the interval (e.g. all delays `0`) construction diverges, so the claim's
"never diverges for any infinite input with non-negative delays" fails. -/
theorem repeatEvery_construction_terminates {E : Type u} (f : Nat → Int × E)
    (t : Int) (N : Nat) (ht : 0 ≤ t) (hcum : t < cumFrom f 0 N) :
    (collectTake f t 0 N).isSome :=
  collectTake_isSome_of_cum f N t 0 ht hcum

/-- Witness for `repeatEvery_construction_terminates` on the unit-delay
infinite input. -/
theorem repeatEvery_construction_terminates_witness :
    ((0 : Int) ≤ 2 ∧ (2 : Int) < cumFrom (fun _ => ((1 : Int), ())) 0 3) ∧
    (collectTake (fun _ => ((1 : Int), ())) 2 0 3).isSome :=
  ⟨⟨by decide, by decide⟩,
    repeatEvery_construction_terminates (fun _ => ((1 : Int), ())) 2 3
      (by decide) (by decide)⟩

/-! ### Var<Var<T>>::sequence (claims C6 and C7) -/

/-- C6: `Var<Var<T>>::sequence()` requires the flattened inner stream's first
event to land at delay `0`: when it does, the result is the `Var` whose
present is that first value and whose future is the rest of the flattened
stream; when the first event has a non-zero delay, or no event exists, the
code fails fast (the `unreachable!` panic, modelled as `none`) instead of
returning a `Var` with a skewed timeline. -/
theorem varVarSequence_fail_fast {T : Type u} (v : Var (Var T)) :
    (∀ (x : T) (rest : List (Int × T)), flatInner v = (0, x) :: rest →
      varVarSequence v = some ⟨x, rest⟩) ∧
    (∀ (d : Int) (x : T) (rest : List (Int × T)), flatInner v = (d, x) :: rest → d ≠ 0 →
      varVarSequence v = none) ∧
    (flatInner v = [] → varVarSequence v = none) := by
  refine ⟨?_, ?_, ?_⟩
  · intro x rest h
    simp [varVarSequence, h]
  · intro d x rest h hd
    simp [varVarSequence, h, hd]
  · intro h
    simp [varVarSequence, h]

/-- Witness for `varVarSequence_fail_fast`: a nested Var whose flattened
stream starts at delay `0`. -/
theorem varVarSequence_fail_fast_witness :
    flatInner (⟨⟨3, [(1, 4)]⟩, []⟩ : Var (Var Nat)) = (0, 3) :: [(1, 4)] ∧
    varVarSequence (⟨⟨3, [(1, 4)]⟩, []⟩ : Var (Var Nat)) = some ⟨3, [(1, 4)]⟩ :=
  ⟨rfl, (varVarSequence_fail_fast (⟨⟨3, [(1, 4)]⟩, []⟩ : Var (Var Nat))).1 3 [(1, 4)] rfl⟩

/-- C7: for every nested `Var` whose outer future has non-negative delays,
`Var<Var<T>>::sequence()` never reaches the `unreachable!` panic: `updates()`
prepends a delay-`0` event to the present inner `Var`, and `chain_at` passes a
delay-`0` first event through, so the flattened stream always starts with the
present inner present value at delay exactly `0` and the operation is total. -/
theorem varVarSequence_never_panics {T : Type u} (v : Var (Var T))
    (h : ∀ p ∈ v.future, (0 : Int) ≤ p.1) :
    ∃ rest, varVarSequence v = some ⟨v.present.present, rest⟩ := by
  obtain ⟨pres, fut⟩ := v
  cases fut with
  | nil =>
    exact ⟨pres.future, by simp [varVarSequence, flatInner, varSequence, varMap, updates,
      map, seqStream]⟩
  | cons q rest =>
    obtain ⟨d, w⟩ := q
    have hd : (0 : Int) ≤ d := by
      have := h (d, w) (by simp)
      simpa using this
    have hflat : flatInner ⟨pres, (d, w) :: rest⟩
        = (0, pres.present) :: chainAt (d - 0) pres.future
            (seqStream (updates w) (List.map (fun p => (p.1, updates p.2)) rest)) := by
      show seqStream ((0, pres.present) :: pres.future)
          ((d, updates w) :: List.map (fun p => (p.1, updates p.2)) rest) = _
      simp only [seqStream, chainAt, hd, if_true]
    exact ⟨chainAt (d - 0) pres.future
        (seqStream (updates w) (List.map (fun p => (p.1, updates p.2)) rest)),
      by simp [varVarSequence, hflat]⟩

/-- Witness for `varVarSequence_never_panics` at a concrete nested Var. -/
theorem varVarSequence_never_panics_witness :
    (∀ p ∈ ([((2 : Int), (⟨5, []⟩ : Var Nat))] : List (Int × Var Nat)), (0 : Int) ≤ p.1) ∧
    ∃ rest, varVarSequence (⟨⟨1, []⟩, [(2, ⟨5, []⟩)]⟩ : Var (Var Nat)) = some ⟨1, rest⟩ :=
  ⟨by decide,
    varVarSequence_never_panics (⟨⟨1, []⟩, [(2, ⟨5, []⟩)]⟩ : Var (Var Nat)) (by decide)⟩

end Avril
